import Mathlib

/-!
Verification of the structural cloner (shallow copy / deep copy) from
src/深拷贝和浅拷贝.js.

JavaScript values are embedded as a heap of addressed nodes: a `Val` is
either a primitive or a reference (address) into a heap, so reference
identity, sharing and cycles are represented faithfully.  `deepCopy` is
fuel-indexed (`none` = the computation did not finish within the given
fuel); the JS function terminates on an input exactly when some fuel
suffices.  The memo (`WeakMap`) is an association list from source
addresses to clone addresses, threaded through the state, with the same
prepend-overwrite behaviour as `WeakMap.set`.
-/

namespace JsClone

/-- Primitive (non-object) JavaScript values; `null` included. -/
inductive Prim where
  | null : Prim
  | undef : Prim
  | bool : Bool → Prim
  | num : Int → Prim
  | str : String → Prim
  | sym : Nat → Prim
  deriving DecidableEq, Repr

/-- A property key: a string, or a symbol (identified by a number). -/
inductive Key where
  | str : String → Key
  | sym : Nat → Key
  deriving DecidableEq, Repr

/-- A value: a primitive, or a reference to a heap node. -/
inductive Val where
  | prim : Prim → Val
  | ref : Nat → Val
  deriving DecidableEq, Repr

/-- One own property of an object: key, enumerability flag, value.
`Reflect.ownKeys` sees every entry; `for..in` sees only enumerable
string-keyed entries. -/
structure FieldEntry where
  key : Key
  enumerable : Bool
  value : Val
  deriving DecidableEq, Repr

/-- A heap node: one composite JavaScript value.  `obj isArr fields`
covers both arrays (`isArr = true`) and plain objects; `fields` is the
own-property list in `Reflect.ownKeys` order. -/
inductive Node where
  | date : Int → Node
  | regexp : String → String → Int → Node
  | set : List Val → Node
  | map : List (Val × Val) → Node
  | obj : Bool → List FieldEntry → Node
  deriving DecidableEq, Repr

/-- The mutable store threaded through a cloning run: the heap (newest
entry first, lookup takes the first match), the next fresh address, and
the memo mapping source addresses to clone addresses. -/
structure St where
  heap : List (Nat × Node)
  next : Nat
  memo : List (Nat × Nat)
  deriving DecidableEq, Repr

/-- The result record `{status, msg, data}` returned by both cloners. -/
structure CloneResult where
  status : Bool
  msg : String
  data : Val
  deriving DecidableEq, Repr

/-- Heap lookup: first entry with the given address wins. -/
def lookupNode : List (Nat × Node) → Nat → Option Node
  | [], _ => none
  | e :: t, a => if a = e.1 then some e.2 else lookupNode t a

/-- Memo lookup (`WeakMap.get` / `WeakMap.has`). -/
def memoLookup : List (Nat × Nat) → Nat → Option Nat
  | [], _ => none
  | e :: t, a => if a = e.1 then some e.2 else memoLookup t a

/-- The own enumerable string-keyed properties of a node: what a
`for..in` + `hasOwnProperty` loop visits.  Dates, regexps, sets and maps
carry no such properties in this model (their payloads are not own
enumerable properties in JS either). -/
def enumStrFields : Node → List FieldEntry
  | .obj _ fs =>
      fs.filter (fun f => f.enumerable && match f.key with
        | .str _ => true
        | .sym _ => false)
  | _ => []

/-- The `Array.isArray` test. -/
def nodeIsArr : Node → Bool
  | .obj isArr _ => isArr
  | _ => false

/-- Shallow copy (`shallowCopy` in the source): fails on `null` and
non-objects returning the original value; otherwise allocates a fresh
array/object and copies the own enumerable properties by reference.
(A dangling reference has no JS counterpart; it is mapped to the failure
branch and never arises in the theorems below.) -/
def shallowCopy (source : Val) (st : St) : CloneResult × St :=
  match source with
  | .prim p =>
      ({ status := false, msg := "浅拷贝失败：源数据必须是对象或数组", data := .prim p }, st)
  | .ref a =>
      match lookupNode st.heap a with
      | none =>
          ({ status := false, msg := "浅拷贝失败：源数据必须是对象或数组", data := .ref a }, st)
      | some nd =>
          ({ status := true, msg := "浅拷贝成功", data := .ref st.next },
           { st with
               heap := (st.next, Node.obj (nodeIsArr nd) (enumStrFields nd)) :: st.heap,
               next := st.next + 1 })

/-- Clone each element of a set in iteration order (`source.forEach`),
threading the state; `dc` is the recursive deep copy at one lower fuel. -/
def cloneElems (dc : Val → St → Option (CloneResult × St)) :
    List Val → St → Option (List Val × St)
  | [], st => some ([], st)
  | v :: vs, st =>
      match dc v st with
      | none => none
      | some (r, st1) =>
          match cloneElems dc vs st1 with
          | none => none
          | some (rest, st2) => some (r.data :: rest, st2)

/-- Clone each map entry in iteration order, key before value
(`keyResult` then `valueResult` in the source). -/
def clonePairs (dc : Val → St → Option (CloneResult × St)) :
    List (Val × Val) → St → Option (List (Val × Val) × St)
  | [], st => some ([], st)
  | p :: ps, st =>
      match dc p.1 st with
      | none => none
      | some (kr, st1) =>
          match dc p.2 st1 with
          | none => none
          | some (vr, st2) =>
              match clonePairs dc ps st2 with
              | none => none
              | some (rest, st3) => some ((kr.data, vr.data) :: rest, st3)

/-- Clone each own property in `Reflect.ownKeys` order.  The clone's
property is created by plain assignment `target[key] = ...`, which makes
it enumerable regardless of the source flag (the special case of the
pre-existing non-enumerable `length` of a fresh array is not tracked). -/
def cloneFields (dc : Val → St → Option (CloneResult × St)) :
    List FieldEntry → St → Option (List FieldEntry × St)
  | [], st => some ([], st)
  | f :: fs, st =>
      match dc f.value st with
      | none => none
      | some (r, st1) =>
          match cloneFields dc fs st1 with
          | none => none
          | some (rest, st2) =>
              some ({ key := f.key, enumerable := true, value := r.data } :: rest, st2)

/-- Deep copy (`deepCopy` in the source), fuel-indexed.  The branch
order matches the source exactly: primitive, `Date`, `RegExp`, `Set`
(memo registration before recursing, no memo lookup first), `Map`
(likewise), then the `map.has(source)` cycle check, then the generic
array/object branch (memo registration before populating).  Each
constructed node is written to the heap when its branch completes; no
branch ever reads a clone node's contents, so this is observationally
the same as the source's incremental `target.add` / `target[key] = `
population. -/
def deepCopy : Nat → Val → St → Option (CloneResult × St)
  | 0, _, _ => none
  | _ + 1, .prim p, st =>
      some ({ status := true, msg := "基本类型无需拷贝", data := .prim p }, st)
  | fuel + 1, .ref a, st =>
      match lookupNode st.heap a with
      | none => none
      | some (.date t) =>
          some ({ status := true, msg := "深拷贝成功（日期类型）", data := .ref st.next },
                { st with heap := (st.next, Node.date t) :: st.heap, next := st.next + 1 })
      | some (.regexp src flags lastIndex) =>
          some ({ status := true, msg := "深拷贝成功（正则类型）", data := .ref st.next },
                { st with
                    heap := (st.next, Node.regexp src flags lastIndex) :: st.heap,
                    next := st.next + 1 })
      | some (.set elems) =>
          match cloneElems (fun v s => deepCopy fuel v s) elems
              { st with next := st.next + 1, memo := (a, st.next) :: st.memo } with
          | none => none
          | some (clones, st2) =>
              some ({ status := true, msg := "深拷贝成功（Set类型）", data := .ref st.next },
                    { st2 with heap := (st.next, Node.set clones) :: st2.heap })
      | some (.map entries) =>
          match clonePairs (fun v s => deepCopy fuel v s) entries
              { st with next := st.next + 1, memo := (a, st.next) :: st.memo } with
          | none => none
          | some (clones, st2) =>
              some ({ status := true, msg := "深拷贝成功（Map类型）", data := .ref st.next },
                    { st2 with heap := (st.next, Node.map clones) :: st2.heap })
      | some (.obj isArr fields) =>
          match memoLookup st.memo a with
          | some c =>
              some ({ status := true, msg := "深拷贝成功（循环引用）", data := .ref c }, st)
          | none =>
              match cloneFields (fun v s => deepCopy fuel v s) fields
                  { st with next := st.next + 1, memo := (a, st.next) :: st.memo } with
              | none => none
              | some (newFields, st2) =>
                  some ({ status := true, msg := "深拷贝成功（对象/数组）", data := .ref st.next },
                        { st2 with heap := (st.next, Node.obj isArr newFields) :: st2.heap })

/-- Rename the address of a reference; primitives unchanged.  Used to
state that two cloning runs produce results equal up to a consistent
renaming of the freshly allocated addresses (graph isomorphism). -/
def renameVal (f : Nat → Nat) : Val → Val
  | .prim p => .prim p
  | .ref a => .ref (f a)

/-- Rename every reference inside a node. -/
def renameNode (f : Nat → Nat) : Node → Node
  | .date t => .date t
  | .regexp src flags li => .regexp src flags li
  | .set es => .set (es.map (renameVal f))
  | .map ps => .map (ps.map (fun p => (renameVal f p.1, renameVal f p.2)))
  | .obj isArr fs => .obj isArr (fs.map (fun fe => { fe with value := renameVal f fe.value }))

/-- The renaming that shifts every address at or above `n0` up by `d`
and fixes the addresses below `n0` (the pre-existing source part). -/
def rho (n0 d a : Nat) : Nat := if a < n0 then a else a + d

/-- Every reference in the value points below `n0`. -/
def valBelow (n0 : Nat) : Val → Bool
  | .prim _ => true
  | .ref a => a < n0

/-- Every reference reachable one step from the node points below `n0`. -/
def nodeBelow (n0 : Nat) : Node → Bool
  | .date _ => true
  | .regexp _ _ _ => true
  | .set es => es.all (valBelow n0)
  | .map ps => ps.all (fun p => valBelow n0 p.1 && valBelow n0 p.2)
  | .obj _ fs => fs.all (fun fe => valBelow n0 fe.value)

/-- A closed heap whose addresses and references all lie below `n0`:
the well-formedness of a JS heap before cloning starts at `next = n0`. -/
def heapBelow (n0 : Nat) (h : List (Nat × Node)) : Bool :=
  h.all (fun e => decide (e.1 < n0) && nodeBelow n0 e.2)

/-- The heap of `s = new Set(); s.add(s)`: a set whose only element is
itself — the failing input for the termination claim. -/
def selfSetHeap : List (Nat × Node) := [(0, Node.set [Val.ref 0])]

/-- The heap of `src = {a: [1, 2, 3]}` (address 0 the record, address 1
the array, with its index properties and non-enumerable `length`). -/
def c9SrcHeap : List (Nat × Node) :=
  [(0, Node.obj false [⟨Key.str "a", true, Val.ref 1⟩]),
   (1, Node.obj true
     [⟨Key.str "0", true, Val.prim (Prim.num 1)⟩,
      ⟨Key.str "1", true, Val.prim (Prim.num 2)⟩,
      ⟨Key.str "2", true, Val.prim (Prim.num 3)⟩,
      ⟨Key.str "length", false, Val.prim (Prim.num 3)⟩])]

/-- A record `{x: v, y: v}` with both fields referencing address 1. -/
def shareRootNode : Node :=
  Node.obj false [⟨Key.str "x", true, Val.ref 1⟩, ⟨Key.str "y", true, Val.ref 1⟩]

/-- The heap of `{x: d, y: d}` with `d` a date. -/
def shareDateHeap : List (Nat × Node) := [(0, shareRootNode), (1, Node.date 99)]

/-- The heap of `{x: r, y: r}` with `r` a regexp. -/
def shareRegHeap : List (Nat × Node) := [(0, shareRootNode), (1, Node.regexp "ab" "g" 2)]

/-- The heap of `{x: s, y: s}` with `s` a set. -/
def shareSetHeap : List (Nat × Node) :=
  [(0, shareRootNode), (1, Node.set [Val.prim (Prim.num 7)])]

/-- The heap of `{x: m, y: m}` with `m` a map. -/
def shareMapHeap : List (Nat × Node) :=
  [(0, shareRootNode), (1, Node.map [(Val.prim (Prim.num 1), Val.prim (Prim.num 2))])]

/-- The store `st'` extends `st`: the next-counter only grew, and the
heap only gained entries, all at addresses that were fresh for `st` and
are below the new counter.  This is the mutation discipline of one
cloning run: existing objects are never written to. -/
def Extends (st st' : St) : Prop :=
  st.next ≤ st'.next ∧
  ∃ ext : List (Nat × Node), st'.heap = ext ++ st.heap ∧
    ∀ x ∈ ext, st.next ≤ x.1 ∧ x.1 < st'.next

/-- Simulation relation between the state of a first cloning run
(`st1`, started at `next = n0` over a heap closed below `n0`) and the
state of a second run of the same source (`st2`): the second run's
fresh addresses are the first run's shifted by `d`, its memo is the
first run's with clone addresses renamed, lookups below `n0` agree, and
every clone node of the first run reappears, renamed, at the shifted
address. -/
structure SimSt (n0 d : Nat) (st1 st2 : St) : Prop where
  next_lb : n0 ≤ st1.next
  next_eq : st2.next = st1.next + d
  low : ∀ a, a < n0 → lookupNode st2.heap a = lookupNode st1.heap a
  memo_eq : st2.memo = st1.memo.map (fun e => (e.1, rho n0 d e.2))
  memo_keys : ∀ e ∈ st1.memo, e.1 < n0
  clones : ∀ a, n0 ≤ a → lookupNode st2.heap (a + d) =
    (lookupNode st1.heap a).map (renameNode (rho n0 d))
  closed : ∀ a nd, a < n0 → lookupNode st1.heap a = some nd → nodeBelow n0 nd = true

/-- Declarative statement of per-element recursive cloning in
iteration order: `SeqClones dc elems st clones st'` holds when, walking
the elements of `elems` left to right and threading the state, each
element is cloned by one recursive call `dc` and its result's `data`
field is the corresponding entry of `clones`, in the same position —
the clone list is exactly the list of recursive deep clones in the
original's iteration order. -/
inductive SeqClones (dc : Val → St → Option (CloneResult × St)) :
    List Val → St → List Val → St → Prop where
  | nil (st : St) : SeqClones dc [] st [] st
  | cons (v : Val) (vs : List Val) (st : St) (r : CloneResult) (st1 : St)
      (rest : List Val) (st2 : St) :
      dc v st = some (r, st1) →
      SeqClones dc vs st1 rest st2 →
      SeqClones dc (v :: vs) st (r.data :: rest) st2

/-! ## Theorems -/

/-- On a set that contains itself, `deepCopy` re-enters the `Set`
branch before ever reaching the `map.has` check, for any state whose
heap maps address 0 to that set: no amount of fuel produces a result. -/
theorem selfSet_no_result (fuel : Nat) :
    ∀ st : St, lookupNode st.heap 0 = some (Node.set [Val.ref 0]) →
      deepCopy fuel (Val.ref 0) st = none := by
  induction fuel with
  | zero => intro st _; rfl
  | succ fuel ih =>
      intro st h
      have h2 : deepCopy fuel (Val.ref 0)
          { st with next := st.next + 1, memo := (0, st.next) :: st.memo } = none :=
        ih _ (by simpa using h)
      simp [deepCopy, h, cloneElems, h2]

/-- Claim C1: the spec says deep copy terminates on every finite input
graph, including cyclic sets.  The code violates this: for
`s = new Set(); s.add(s)` the `Set` dispatch branch fires before the
memo check, so the recursion never bottoms out — the fuel-indexed
embedding returns no result for any fuel. -/
theorem deepCopy_self_set_diverges (fuel : Nat) :
    deepCopy fuel (Val.ref 0) { heap := selfSetHeap, next := 1, memo := [] } = none :=
  selfSet_no_result fuel _ (by decide)

/-- Claim C2: for a record `a` with `a.self = a`, `deepCopy` (with two
units of fuel beyond the base, i.e. it terminates) returns a fresh
record `b` whose `self` field is a reference to `b` itself. -/
theorem deepCopy_self_ref_record (h : List (Nat × Node)) (a n fuel : Nat)
    (hlook : lookupNode h a = some (Node.obj false [⟨Key.str "self", true, Val.ref a⟩]))
    (hfresh : a < n) :
    ∃ st' : St,
      deepCopy (fuel + 1 + 1) (Val.ref a) { heap := h, next := n, memo := [] } =
        some ({ status := true, msg := "深拷贝成功（对象/数组）", data := Val.ref n }, st') ∧
      lookupNode st'.heap n = some (Node.obj false [⟨Key.str "self", true, Val.ref n⟩]) ∧
      n ≠ a := by
  refine ⟨{ heap := (n, Node.obj false [⟨Key.str "self", true, Val.ref n⟩]) :: h,
            next := n + 1, memo := [(a, n)] }, ?_, ?_, by omega⟩
  · simp [deepCopy, hlook, memoLookup, cloneFields]
  · simp [lookupNode]

/-- Claim C2 witness: the concrete record `a = {self: a}` at address 0. -/
theorem deepCopy_self_ref_record_witness :
    ∃ st' : St,
      deepCopy 2 (Val.ref 0)
          { heap := [(0, Node.obj false [⟨Key.str "self", true, Val.ref 0⟩])],
            next := 1, memo := [] } =
        some ({ status := true, msg := "深拷贝成功（对象/数组）", data := Val.ref 1 }, st') ∧
      lookupNode st'.heap 1 = some (Node.obj false [⟨Key.str "self", true, Val.ref 1⟩]) ∧
      (1 : Nat) ≠ 0 :=
  deepCopy_self_ref_record [(0, Node.obj false [⟨Key.str "self", true, Val.ref 0⟩])] 0 1 0
    (by decide) (by decide)

/-- Claim C5: shallow copy of any non-composite value (every primitive,
`null` included) returns `status = false` with the original value
passed through unchanged, leaves the store untouched, and raises no
exception (it is a total function). -/
theorem shallowCopy_non_composite (p : Prim) (st : St) :
    shallowCopy (Val.prim p) st =
      ({ status := false, msg := "浅拷贝失败：源数据必须是对象或数组", data := Val.prim p }, st) :=
  rfl

/-- Claim C7: deep copy of a regexp allocates a fresh pattern object
(distinct from the original) with the same source text, the same flags
and the same `lastIndex` cursor, whatever the cursor value. -/
theorem deepCopy_regexp_preserves_state (st : St) (a fuel : Nat)
    (src flags : String) (li : Int)
    (hlook : lookupNode st.heap a = some (Node.regexp src flags li))
    (hfresh : a < st.next) :
    ∃ st' : St,
      deepCopy (fuel + 1) (Val.ref a) st =
        some ({ status := true, msg := "深拷贝成功（正则类型）", data := Val.ref st.next }, st') ∧
      lookupNode st'.heap st.next = some (Node.regexp src flags li) ∧
      st.next ≠ a := by
  refine ⟨{ st with
              heap := (st.next, Node.regexp src flags li) :: st.heap,
              next := st.next + 1 }, ?_, ?_, by omega⟩
  · simp [deepCopy, hlook]
  · simp [lookupNode]

/-- Claim C7 witness: a regexp `/ab/g` whose `lastIndex` cursor is the
non-zero value 5. -/
theorem deepCopy_regexp_preserves_state_witness :
    ∃ st' : St,
      deepCopy 1 (Val.ref 0)
          { heap := [(0, Node.regexp "ab" "g" 5)], next := 1, memo := [] } =
        some ({ status := true, msg := "深拷贝成功（正则类型）", data := Val.ref 1 }, st') ∧
      lookupNode st'.heap 1 = some (Node.regexp "ab" "g" 5) ∧
      (1 : Nat) ≠ 0 :=
  deepCopy_regexp_preserves_state
    { heap := [(0, Node.regexp "ab" "g" 5)], next := 1, memo := [] } 0 0 "ab" "g" 5
    (by decide) (by decide)

/-- A successful `cloneElems` run is exactly a left-to-right chain of
recursive clone calls whose `data` results are collected in order. -/
theorem cloneElems_seqClones (dc : Val → St → Option (CloneResult × St)) :
    ∀ (l : List Val) (st : St) (l' : List Val) (st' : St),
      cloneElems dc l st = some (l', st') → SeqClones dc l st l' st' := by
  intro l
  induction l with
  | nil =>
      intro st l' st' hh
      simp [cloneElems] at hh
      obtain ⟨h1, h2⟩ := hh
      subst h1
      subst h2
      exact SeqClones.nil st
  | cons v vs ih =>
      intro st l' st' hh
      rw [cloneElems] at hh
      split at hh
      · exact Option.noConfusion hh
      · rename_i r st1 heq1
        split at hh
        · exact Option.noConfusion hh
        · rename_i rest st2 heq2
          simp only [Option.some.injEq, Prod.mk.injEq] at hh
          obtain ⟨h1, h2⟩ := hh
          subst h1
          subst h2
          exact SeqClones.cons v vs st r st1 rest st2 heq1 (ih st1 rest st2 heq2)

/-- The clone list built by a chain of recursive clone calls has one
entry per source element. -/
theorem seqClones_length (dc : Val → St → Option (CloneResult × St))
    (l : List Val) (st : St) (l' : List Val) (st' : St)
    (h : SeqClones dc l st l' st') : l'.length = l.length := by
  induction h with
  | nil => rfl
  | cons v vs st r st1 rest st2 hdc hrec ih => simp [ih]

/-- The function `cloneFields` never drops, reorders or renames a key: the output
key list equals the input key list whatever the recursive cloner did. -/
theorem cloneFields_keys (dc : Val → St → Option (CloneResult × St)) :
    ∀ (fields : List FieldEntry) (st : St) (fs' : List FieldEntry) (st' : St),
      cloneFields dc fields st = some (fs', st') →
      fs'.map FieldEntry.key = fields.map FieldEntry.key := by
  intro fields
  induction fields with
  | nil =>
      intro st fs' st' h
      simp [cloneFields] at h
      simp [h.1]
  | cons f fs ih =>
      intro st fs' st' h
      rw [cloneFields] at h
      split at h
      · exact absurd h (by simp)
      · split at h
        · exact absurd h (by simp)
        · simp at h
          obtain ⟨h1, h2⟩ := h
          subst h1
          simp_all [List.map_cons]
          exact ih _ _ _ (by assumption)

/-- Claim C3: when two fields of a record reference the same composite
value, the memo makes both fields of the clone resolve to the one clone
instance: both fields of the output hold the identical reference. -/
theorem deepCopy_shared_ref_same_clone (h : List (Nat × Node)) (a s n fuel : Nat) (kx ky : Key)
    (hroot : lookupNode h a =
      some (Node.obj false [⟨kx, true, Val.ref s⟩, ⟨ky, true, Val.ref s⟩]))
    (hshared : lookupNode h s = some (Node.obj false []))
    (hsa : s ≠ a) (hsn : s < n) (_han : a < n) :
    ∃ st' : St,
      deepCopy (fuel + 1 + 1) (Val.ref a) { heap := h, next := n, memo := [] } =
        some ({ status := true, msg := "深拷贝成功（对象/数组）", data := Val.ref n }, st') ∧
      lookupNode st'.heap n =
        some (Node.obj false [⟨kx, true, Val.ref (n + 1)⟩, ⟨ky, true, Val.ref (n + 1)⟩]) := by
  refine ⟨{ heap := (n, Node.obj false [⟨kx, true, Val.ref (n + 1)⟩, ⟨ky, true, Val.ref (n + 1)⟩]) ::
              (n + 1, Node.obj false []) :: h,
            next := n + 2, memo := [(s, n + 1), (a, n)] }, ?_, ?_⟩
  · have hs1 : ¬ (s = n + 1) := by omega
    simp [deepCopy, hroot, hshared, memoLookup, cloneFields, lookupNode, hsa, hs1]
  · simp [lookupNode]

/-- Claim C3 witness: `shared = {}`, `root = {x: shared, y: shared}`;
both fields of the clone are the identical reference to address 3. -/
theorem deepCopy_shared_ref_same_clone_witness :
    ∃ st' : St,
      deepCopy 2 (Val.ref 0)
          { heap := [(0, Node.obj false
              [⟨Key.str "x", true, Val.ref 1⟩, ⟨Key.str "y", true, Val.ref 1⟩]),
             (1, Node.obj false [])], next := 2, memo := [] } =
        some ({ status := true, msg := "深拷贝成功（对象/数组）", data := Val.ref 2 }, st') ∧
      lookupNode st'.heap 2 =
        some (Node.obj false [⟨Key.str "x", true, Val.ref 3⟩, ⟨Key.str "y", true, Val.ref 3⟩]) :=
  deepCopy_shared_ref_same_clone
    [(0, Node.obj false [⟨Key.str "x", true, Val.ref 1⟩, ⟨Key.str "y", true, Val.ref 1⟩]),
     (1, Node.obj false [])]
    0 1 2 0 (Key.str "x") (Key.str "y") (by decide) (by decide) (by decide) (by decide)
    (by decide)

/-- Claim C4: every result `deepCopy` ever returns carries
`status = true` (deep copy has no failure mode), while `shallowCopy`
reports `status = false` exactly on non-composite inputs: false on
every primitive, true on every reference to an existing node. -/
theorem clone_status_contract :
    (∀ (fuel : Nat) (v : Val) (st : St) (r : CloneResult) (st' : St),
        deepCopy fuel v st = some (r, st') → r.status = true) ∧
    (∀ (p : Prim) (st : St), (shallowCopy (Val.prim p) st).1.status = false) ∧
    (∀ (st : St) (a : Nat) (nd : Node), lookupNode st.heap a = some nd →
        (shallowCopy (Val.ref a) st).1.status = true) := by
  refine ⟨?_, ?_, ?_⟩
  · intro fuel v st r st' h
    cases fuel with
    | zero => exact Option.noConfusion h
    | succ fuel =>
        cases v with
        | prim p =>
            simp only [deepCopy, Option.some.injEq, Prod.mk.injEq] at h
            rw [← h.1]
        | ref a =>
            simp only [deepCopy] at h
            repeat' split at h
            all_goals first
              | exact Option.noConfusion h
              | (simp only [Option.some.injEq, Prod.mk.injEq] at h
                 rw [← h.1])
  · intro p st
    rfl
  · intro st a nd h
    simp [shallowCopy, h]

/-- Claim C4 witness: a primitive deep copy reports success, a
primitive shallow copy reports failure, a composite shallow copy
reports success. -/
theorem clone_status_contract_witness :
    ({ status := true, msg := "基本类型无需拷贝",
       data := Val.prim (Prim.num 5) } : CloneResult).status = true ∧
    (shallowCopy (Val.prim (Prim.num 5)) { heap := [], next := 0, memo := [] }).1.status = false ∧
    (shallowCopy (Val.ref 0) { heap := [(0, Node.date 0)], next := 1, memo := [] }).1.status
      = true :=
  ⟨clone_status_contract.1 1 (Val.prim (Prim.num 5)) { heap := [], next := 0, memo := [] }
      { status := true, msg := "基本类型无需拷贝", data := Val.prim (Prim.num 5) }
      { heap := [], next := 0, memo := [] } rfl,
   clone_status_contract.2.1 (Prim.num 5) { heap := [], next := 0, memo := [] },
   clone_status_contract.2.2 { heap := [(0, Node.date 0)], next := 1, memo := [] } 0
     (Node.date 0) rfl⟩

/-- Claim C8: for every set input (elements of any kind), a successful
deep copy allocates a fresh set, distinct from the original, whose
element list is exactly the left-to-right chain of recursive deep
clones of the original's elements — one clone per element, inserted in
the original's iteration order (`SeqClones`), so the clone's iteration
order equals the original's.  Concretely: the primitive set with
insertion order 3, 1, 2 clones to a set iterating 3, 1, 2 again, and a
set holding a composite element gets a fresh deep clone of that
element, not the original reference. -/
theorem deepCopy_set_preserves_order :
    (∀ (st : St) (a fuel : Nat) (elems : List Val) (r : CloneResult) (st' : St),
        lookupNode st.heap a = some (Node.set elems) →
        a < st.next →
        deepCopy (fuel + 1) (Val.ref a) st = some (r, st') →
        r.status = true ∧ r.data = Val.ref st.next ∧ st.next ≠ a ∧
        ∃ (clones : List Val) (st2 : St),
          SeqClones (fun v s => deepCopy fuel v s) elems
            { heap := st.heap, next := st.next + 1, memo := (a, st.next) :: st.memo }
            clones st2 ∧
          clones.length = elems.length ∧
          lookupNode st'.heap st.next = some (Node.set clones)) ∧
    (∃ st' : St,
      deepCopy 2 (Val.ref 0)
          { heap := [(0, Node.set
              [Val.prim (Prim.num 3), Val.prim (Prim.num 1), Val.prim (Prim.num 2)])],
            next := 1, memo := [] } =
        some ({ status := true, msg := "深拷贝成功（Set类型）", data := Val.ref 1 }, st') ∧
      lookupNode st'.heap 1 =
        some (Node.set
          [Val.prim (Prim.num 3), Val.prim (Prim.num 1), Val.prim (Prim.num 2)])) ∧
    (∃ st' : St,
      deepCopy 3 (Val.ref 0)
          { heap := [(0, Node.set [Val.ref 1]),
                     (1, Node.obj false [⟨Key.str "v", true, Val.prim (Prim.num 1)⟩])],
            next := 2, memo := [] } =
        some ({ status := true, msg := "深拷贝成功（Set类型）", data := Val.ref 2 }, st') ∧
      lookupNode st'.heap 2 = some (Node.set [Val.ref 3]) ∧
      lookupNode st'.heap 3 =
        some (Node.obj false [⟨Key.str "v", true, Val.prim (Prim.num 1)⟩]) ∧
      Val.ref 3 ≠ Val.ref 1) := by
  refine ⟨?_, ⟨_, rfl, by decide⟩, ⟨_, rfl, by decide, by decide, by decide⟩⟩
  intro st a fuel elems r st' hlook hfresh hrun
  simp only [deepCopy, hlook] at hrun
  split at hrun
  · exact Option.noConfusion hrun
  · rename_i clones st2 heq
    simp only [Option.some.injEq, Prod.mk.injEq] at hrun
    obtain ⟨h1, h2⟩ := hrun
    refine ⟨by rw [← h1], by rw [← h1], by omega, clones, st2,
      cloneElems_seqClones _ elems _ clones st2 heq,
      seqClones_length _ elems _ clones st2 (cloneElems_seqClones _ elems _ clones st2 heq),
      ?_⟩
    rw [← h2]
    simp [lookupNode]

/-- Claim C8 witness: the general part applied to the set holding one
composite element (a record `{v: 1}`): the chain of recursive clones
produces one clone for the one element, and the fresh set at address 2
holds it. -/
theorem deepCopy_set_preserves_order_witness :
    ({ status := true, msg := "深拷贝成功（Set类型）", data := Val.ref 2 } : CloneResult).status
        = true ∧
    ({ status := true, msg := "深拷贝成功（Set类型）",
       data := Val.ref 2 } : CloneResult).data = Val.ref 2 ∧
    (2 : Nat) ≠ 0 ∧
    ∃ (clones : List Val) (st2 : St),
      SeqClones (fun v s => deepCopy 2 v s) [Val.ref 1]
        { heap := [(0, Node.set [Val.ref 1]),
                   (1, Node.obj false [⟨Key.str "v", true, Val.prim (Prim.num 1)⟩])],
          next := 3, memo := [(0, 2)] }
        clones st2 ∧
      clones.length = [Val.ref 1].length ∧
      lookupNode
        [(2, Node.set [Val.ref 3]),
         (3, Node.obj false [⟨Key.str "v", true, Val.prim (Prim.num 1)⟩]),
         (0, Node.set [Val.ref 1]),
         (1, Node.obj false [⟨Key.str "v", true, Val.prim (Prim.num 1)⟩])] 2 =
        some (Node.set clones) :=
  deepCopy_set_preserves_order.1
    { heap := [(0, Node.set [Val.ref 1]),
               (1, Node.obj false [⟨Key.str "v", true, Val.prim (Prim.num 1)⟩])],
      next := 2, memo := [] }
    0 2 [Val.ref 1]
    { status := true, msg := "深拷贝成功（Set类型）", data := Val.ref 2 }
    { heap := [(2, Node.set [Val.ref 3]),
               (3, Node.obj false [⟨Key.str "v", true, Val.prim (Prim.num 1)⟩]),
               (0, Node.set [Val.ref 1]),
               (1, Node.obj false [⟨Key.str "v", true, Val.prim (Prim.num 1)⟩])],
      next := 4, memo := [(1, 3), (0, 2)] }
    (by decide) (by decide) (by decide)

/-- Claim C9: the generic branch allocates a new container of the same
shape (array for arrays, record otherwise) at the fresh address and
copies the full own-key set — every key, enumerable or not, string or
symbol, in order — and, concretely for `src = {a: [1,2,3]}`, the nested
array is cloned at a distinct address, so mutating the clone's array
(writing any node whatever at its address) leaves the source array
unchanged. -/
theorem deepCopy_generic_full_keys_independent :
    (∀ (st : St) (a fuel : Nat) (isArr : Bool) (fields : List FieldEntry)
        (r : CloneResult) (st' : St),
        lookupNode st.heap a = some (Node.obj isArr fields) →
        memoLookup st.memo a = none →
        deepCopy (fuel + 1) (Val.ref a) st = some (r, st') →
        r.status = true ∧ r.data = Val.ref st.next ∧
        ∃ newFields : List FieldEntry,
          lookupNode st'.heap st.next = some (Node.obj isArr newFields) ∧
          newFields.map FieldEntry.key = fields.map FieldEntry.key) ∧
    (∃ st2 : St,
      deepCopy 3 (Val.ref 0) { heap := c9SrcHeap, next := 2, memo := [] } =
        some ({ status := true, msg := "深拷贝成功（对象/数组）", data := Val.ref 2 }, st2) ∧
      lookupNode st2.heap 2 = some (Node.obj false [⟨Key.str "a", true, Val.ref 3⟩]) ∧
      lookupNode st2.heap 3 = some (Node.obj true
        [⟨Key.str "0", true, Val.prim (Prim.num 1)⟩,
         ⟨Key.str "1", true, Val.prim (Prim.num 2)⟩,
         ⟨Key.str "2", true, Val.prim (Prim.num 3)⟩,
         ⟨Key.str "length", true, Val.prim (Prim.num 3)⟩]) ∧
      (3 : Nat) ≠ 1 ∧
      (∀ nd : Node, lookupNode ((3, nd) :: st2.heap) 1 =
        some (Node.obj true
          [⟨Key.str "0", true, Val.prim (Prim.num 1)⟩,
           ⟨Key.str "1", true, Val.prim (Prim.num 2)⟩,
           ⟨Key.str "2", true, Val.prim (Prim.num 3)⟩,
           ⟨Key.str "length", false, Val.prim (Prim.num 3)⟩]))) := by
  constructor
  · intro st a fuel isArr fields r st' hlook hmemo hrun
    simp only [deepCopy, hlook, hmemo] at hrun
    split at hrun
    · exact Option.noConfusion hrun
    · rename_i newFields st2 heq
      simp only [Option.some.injEq, Prod.mk.injEq] at hrun
      obtain ⟨h1, h2⟩ := hrun
      refine ⟨by rw [← h1], by rw [← h1], newFields, ?_, cloneFields_keys _ fields _ _ _ heq⟩
      rw [← h2]
      simp [lookupNode]
  · refine ⟨_, rfl, by decide, by decide, by decide, ?_⟩
    intro nd
    simp [lookupNode]

/-- Claim C9 witness: concrete instance of the generic part, with a
record carrying a non-enumerable key and a symbol key. -/
theorem deepCopy_generic_full_keys_independent_witness :
    ({ status := true, msg := "深拷贝成功（对象/数组）", data := Val.ref 1 } : CloneResult).status
        = true ∧
    ({ status := true, msg := "深拷贝成功（对象/数组）",
       data := Val.ref 1 } : CloneResult).data = Val.ref 1 ∧
    ∃ newFields : List FieldEntry,
      lookupNode ((1, Node.obj false
        [⟨Key.str "hidden", true, Val.prim (Prim.num 1)⟩,
         ⟨Key.sym 0, true, Val.prim (Prim.num 2)⟩]) ::
          [(0, Node.obj false
            [⟨Key.str "hidden", false, Val.prim (Prim.num 1)⟩,
             ⟨Key.sym 0, true, Val.prim (Prim.num 2)⟩])]) 1
          = some (Node.obj false newFields) ∧
      newFields.map FieldEntry.key =
        [⟨Key.str "hidden", false, Val.prim (Prim.num 1)⟩,
         ⟨Key.sym 0, true, Val.prim (Prim.num 2)⟩].map FieldEntry.key :=
  deepCopy_generic_full_keys_independent.1
    { heap := [(0, Node.obj false
        [⟨Key.str "hidden", false, Val.prim (Prim.num 1)⟩,
         ⟨Key.sym 0, true, Val.prim (Prim.num 2)⟩])], next := 1, memo := [] }
    0 1 false
    [⟨Key.str "hidden", false, Val.prim (Prim.num 1)⟩,
     ⟨Key.sym 0, true, Val.prim (Prim.num 2)⟩]
    { status := true, msg := "深拷贝成功（对象/数组）", data := Val.ref 1 }
    { heap := (1, Node.obj false
        [⟨Key.str "hidden", true, Val.prim (Prim.num 1)⟩,
         ⟨Key.sym 0, true, Val.prim (Prim.num 2)⟩]) ::
          [(0, Node.obj false
            [⟨Key.str "hidden", false, Val.prim (Prim.num 1)⟩,
             ⟨Key.sym 0, true, Val.prim (Prim.num 2)⟩])],
      next := 2, memo := [(0, 1)] }
    (by decide) (by decide) (by decide)

/-- Claim C10: two fields referencing the same date, regexp, set or map
produce two distinct clone instances (addresses 3 and 4), because those
dispatch branches run before the memo lookup — unlike the generic
branch, where sharing is preserved. -/
theorem deepCopy_special_kinds_not_shared :
    (∃ st' : St,
      deepCopy 3 (Val.ref 0) { heap := shareDateHeap, next := 2, memo := [] } =
        some ({ status := true, msg := "深拷贝成功（对象/数组）", data := Val.ref 2 }, st') ∧
      lookupNode st'.heap 2 =
        some (Node.obj false [⟨Key.str "x", true, Val.ref 3⟩, ⟨Key.str "y", true, Val.ref 4⟩]) ∧
      lookupNode st'.heap 3 = some (Node.date 99) ∧
      lookupNode st'.heap 4 = some (Node.date 99) ∧
      Val.ref 3 ≠ Val.ref 4) ∧
    (∃ st' : St,
      deepCopy 3 (Val.ref 0) { heap := shareRegHeap, next := 2, memo := [] } =
        some ({ status := true, msg := "深拷贝成功（对象/数组）", data := Val.ref 2 }, st') ∧
      lookupNode st'.heap 2 =
        some (Node.obj false [⟨Key.str "x", true, Val.ref 3⟩, ⟨Key.str "y", true, Val.ref 4⟩]) ∧
      lookupNode st'.heap 3 = some (Node.regexp "ab" "g" 2) ∧
      lookupNode st'.heap 4 = some (Node.regexp "ab" "g" 2) ∧
      Val.ref 3 ≠ Val.ref 4) ∧
    (∃ st' : St,
      deepCopy 3 (Val.ref 0) { heap := shareSetHeap, next := 2, memo := [] } =
        some ({ status := true, msg := "深拷贝成功（对象/数组）", data := Val.ref 2 }, st') ∧
      lookupNode st'.heap 2 =
        some (Node.obj false [⟨Key.str "x", true, Val.ref 3⟩, ⟨Key.str "y", true, Val.ref 4⟩]) ∧
      lookupNode st'.heap 3 = some (Node.set [Val.prim (Prim.num 7)]) ∧
      lookupNode st'.heap 4 = some (Node.set [Val.prim (Prim.num 7)]) ∧
      Val.ref 3 ≠ Val.ref 4) ∧
    (∃ st' : St,
      deepCopy 3 (Val.ref 0) { heap := shareMapHeap, next := 2, memo := [] } =
        some ({ status := true, msg := "深拷贝成功（对象/数组）", data := Val.ref 2 }, st') ∧
      lookupNode st'.heap 2 =
        some (Node.obj false [⟨Key.str "x", true, Val.ref 3⟩, ⟨Key.str "y", true, Val.ref 4⟩]) ∧
      lookupNode st'.heap 3 = some (Node.map [(Val.prim (Prim.num 1), Val.prim (Prim.num 2))]) ∧
      lookupNode st'.heap 4 = some (Node.map [(Val.prim (Prim.num 1), Val.prim (Prim.num 2))]) ∧
      Val.ref 3 ≠ Val.ref 4) :=
  ⟨⟨_, rfl, by decide, by decide, by decide, by decide⟩,
   ⟨_, rfl, by decide, by decide, by decide, by decide⟩,
   ⟨_, rfl, by decide, by decide, by decide, by decide⟩,
   ⟨_, rfl, by decide, by decide, by decide, by decide⟩⟩

/-- Looking up an address below `n` skips any prefix of entries whose
addresses are at least `n`. -/
theorem lookupNode_append_high (n : Nat) (ext h : List (Nat × Node)) (a : Nat)
    (hext : ∀ x ∈ ext, n ≤ x.1) (ha : a < n) :
    lookupNode (ext ++ h) a = lookupNode h a := by
  induction ext with
  | nil => rfl
  | cons e t ih =>
      have he := hext e (List.mem_cons_self e t)
      have hne : ¬ (a = e.1) := by omega
      rw [List.cons_append, lookupNode, if_neg hne]
      exact ih (fun x hx => hext x (List.mem_cons_of_mem _ hx))

/-- Looking up an address at or above every entry's address fails. -/
theorem lookupNode_none_of_ge (h : List (Nat × Node)) (n a : Nat)
    (hh : ∀ x ∈ h, x.1 < n) (ha : n ≤ a) : lookupNode h a = none := by
  induction h with
  | nil => rfl
  | cons e t ih =>
      have he := hh e (List.mem_cons_self e t)
      have hne : ¬ (a = e.1) := by omega
      rw [lookupNode, if_neg hne]
      exact ih (fun x hx => hh x (List.mem_cons_of_mem _ hx))

/-- A successful lookup returns an entry of the list. -/
theorem lookupNode_mem (h : List (Nat × Node)) (a : Nat) (nd : Node)
    (hl : lookupNode h a = some nd) : (a, nd) ∈ h := by
  induction h with
  | nil => exact Option.noConfusion hl
  | cons e t ih =>
      rw [lookupNode] at hl
      by_cases hae : a = e.1
      · rw [if_pos hae] at hl
        obtain ⟨rfl⟩ := hl
        subst hae
        exact List.mem_cons_self _ _
      · rw [if_neg hae] at hl
        exact List.mem_cons_of_mem _ (ih hl)

/-- Memo lookup commutes with renaming the stored clone addresses. -/
theorem memoLookup_map (m : List (Nat × Nat)) (f : Nat → Nat) (a : Nat) :
    memoLookup (m.map (fun e => (e.1, f e.2))) a = (memoLookup m a).map f := by
  induction m with
  | nil => rfl
  | cons e t ih =>
      by_cases hae : a = e.1
      · simp [memoLookup, hae]
      · simp [memoLookup, hae, ih]

/-- Extension is reflexive. -/
theorem Extends.rfl (st : St) : Extends st st :=
  ⟨Nat.le_refl _, [], by simp, by simp⟩

/-- Extension is transitive. -/
theorem Extends.trans {st1 st2 st3 : St} (h12 : Extends st1 st2) (h23 : Extends st2 st3) :
    Extends st1 st3 := by
  obtain ⟨hn12, e1, he1, hb1⟩ := h12
  obtain ⟨hn23, e2, he2, hb2⟩ := h23
  refine ⟨Nat.le_trans hn12 hn23, e2 ++ e1, by rw [he2, he1, List.append_assoc], ?_⟩
  intro x hx
  rcases List.mem_append.mp hx with hx2 | hx1
  · exact ⟨Nat.le_trans hn12 (hb2 x hx2).1, (hb2 x hx2).2⟩
  · exact ⟨(hb1 x hx1).1, Nat.lt_of_lt_of_le (hb1 x hx1).2 hn23⟩

/-- Allocating one fresh node (and possibly touching the memo) is an
extension. -/
theorem Extends.alloc (st : St) (nd : Node) (m : List (Nat × Nat)) :
    Extends st { heap := (st.next, nd) :: st.heap, next := st.next + 1, memo := m } := by
  refine ⟨by simp, [(st.next, nd)], by simp, ?_⟩
  intro x hx
  simp at hx
  subst hx
  exact ⟨Nat.le_refl _, by simp⟩

/-- Registering the source in the memo, recursing (an extension of the
intermediate state), then writing the clone node at the reserved
address `st.next` is altogether an extension of the original state. -/
theorem Extends.finish (st : St) (m : List (Nat × Nat)) (st2 : St) (nd : Node)
    (hmid : Extends { heap := st.heap, next := st.next + 1, memo := m } st2) :
    Extends st { heap := (st.next, nd) :: st2.heap, next := st2.next, memo := st2.memo } := by
  obtain ⟨hn, ext, hheap, hb⟩ := hmid
  refine ⟨?_, (st.next, nd) :: ext, by simp [hheap], ?_⟩
  · show st.next ≤ st2.next
    simp at hn
    omega
  intro x hx
  rcases List.mem_cons.mp hx with rfl | hx
  · refine ⟨Nat.le_refl _, ?_⟩
    show st.next < st2.next
    simp at hn
    omega
  · obtain ⟨h1, h2⟩ := hb x hx
    simp at h1
    refine ⟨by omega, ?_⟩
    show x.1 < st2.next
    exact h2

/-- A run of `cloneElems` only extends the store, provided each
recursive call does. -/
theorem cloneElems_extends (dc : Val → St → Option (CloneResult × St))
    (hdc : ∀ v st r st', dc v st = some (r, st') → Extends st st') :
    ∀ (l : List Val) (st : St) (l' : List Val) (st' : St),
      cloneElems dc l st = some (l', st') → Extends st st' := by
  intro l
  induction l with
  | nil =>
      intro st l' st' hh
      simp [cloneElems] at hh
      rw [← hh.2]
      exact Extends.rfl st
  | cons v vs ih =>
      intro st l' st' hh
      rw [cloneElems] at hh
      split at hh
      · exact Option.noConfusion hh
      · rename_i r st1 heq1
        split at hh
        · exact Option.noConfusion hh
        · rename_i rest st2 heq2
          simp only [Option.some.injEq, Prod.mk.injEq] at hh
          rw [← hh.2]
          exact Extends.trans (hdc v st r st1 heq1) (ih st1 rest st2 heq2)

/-- A run of `clonePairs` only extends the store, provided each
recursive call does. -/
theorem clonePairs_extends (dc : Val → St → Option (CloneResult × St))
    (hdc : ∀ v st r st', dc v st = some (r, st') → Extends st st') :
    ∀ (l : List (Val × Val)) (st : St) (l' : List (Val × Val)) (st' : St),
      clonePairs dc l st = some (l', st') → Extends st st' := by
  intro l
  induction l with
  | nil =>
      intro st l' st' hh
      simp [clonePairs] at hh
      rw [← hh.2]
      exact Extends.rfl st
  | cons p ps ih =>
      intro st l' st' hh
      rw [clonePairs] at hh
      split at hh
      · exact Option.noConfusion hh
      · rename_i kr st1 heq1
        split at hh
        · exact Option.noConfusion hh
        · rename_i vr st2 heq2
          split at hh
          · exact Option.noConfusion hh
          · rename_i rest st3 heq3
            simp only [Option.some.injEq, Prod.mk.injEq] at hh
            rw [← hh.2]
            exact Extends.trans (hdc p.1 st kr st1 heq1)
              (Extends.trans (hdc p.2 st1 vr st2 heq2) (ih st2 rest st3 heq3))

/-- A run of `cloneFields` only extends the store, provided each
recursive call does. -/
theorem cloneFields_extends (dc : Val → St → Option (CloneResult × St))
    (hdc : ∀ v st r st', dc v st = some (r, st') → Extends st st') :
    ∀ (l : List FieldEntry) (st : St) (l' : List FieldEntry) (st' : St),
      cloneFields dc l st = some (l', st') → Extends st st' := by
  intro l
  induction l with
  | nil =>
      intro st l' st' hh
      simp [cloneFields] at hh
      rw [← hh.2]
      exact Extends.rfl st
  | cons f fs ih =>
      intro st l' st' hh
      rw [cloneFields] at hh
      split at hh
      · exact Option.noConfusion hh
      · rename_i r st1 heq1
        split at hh
        · exact Option.noConfusion hh
        · rename_i rest st2 heq2
          simp only [Option.some.injEq, Prod.mk.injEq] at hh
          rw [← hh.2]
          exact Extends.trans (hdc f.value st r st1 heq1) (ih st1 rest st2 heq2)

/-- Any successful `deepCopy` run only extends the store: it never
rewrites an existing heap entry, it only allocates fresh ones. -/
theorem deepCopy_extends : ∀ (fuel : Nat) (v : Val) (st : St) (r : CloneResult) (st' : St),
    deepCopy fuel v st = some (r, st') → Extends st st' := by
  intro fuel
  induction fuel with
  | zero => intro v st r st' hh; exact Option.noConfusion hh
  | succ fuel ih =>
      intro v st r st' hh
      cases v with
      | prim p =>
          simp only [deepCopy, Option.some.injEq, Prod.mk.injEq] at hh
          rw [← hh.2]
          exact Extends.rfl st
      | ref a =>
          simp only [deepCopy] at hh
          split at hh
          · exact Option.noConfusion hh
          · simp only [Option.some.injEq, Prod.mk.injEq] at hh
            rw [← hh.2]
            exact Extends.alloc st _ st.memo
          · simp only [Option.some.injEq, Prod.mk.injEq] at hh
            rw [← hh.2]
            exact Extends.alloc st _ st.memo
          · split at hh
            · exact Option.noConfusion hh
            · rename_i clones st2 heq
              simp only [Option.some.injEq, Prod.mk.injEq] at hh
              rw [← hh.2]
              exact Extends.finish st _ st2 _
                (cloneElems_extends _ (fun v st r st' hq => ih v st r st' hq) _ _ _ _ heq)
          · split at hh
            · exact Option.noConfusion hh
            · rename_i clones st2 heq
              simp only [Option.some.injEq, Prod.mk.injEq] at hh
              rw [← hh.2]
              exact Extends.finish st _ st2 _
                (clonePairs_extends _ (fun v st r st' hq => ih v st r st' hq) _ _ _ _ heq)
          · split at hh
            · simp only [Option.some.injEq, Prod.mk.injEq] at hh
              rw [← hh.2]
              exact Extends.rfl st
            · split at hh
              · exact Option.noConfusion hh
              · rename_i newFields st2 heq
                simp only [Option.some.injEq, Prod.mk.injEq] at hh
                rw [← hh.2]
                exact Extends.finish st _ st2 _
                  (cloneFields_extends _ (fun v st r st' hq => ih v st r st' hq) _ _ _ _ heq)

/-- Pre-existing entries read the same after an extension. -/
theorem Extends.lookup_low {st st' : St} (h : Extends st st') (a : Nat) (ha : a < st.next) :
    lookupNode st'.heap a = lookupNode st.heap a := by
  obtain ⟨hn, ext, hheap, hb⟩ := h
  rw [hheap]
  exact lookupNode_append_high st.next ext st.heap a (fun x hx => (hb x hx).1) ha

/-- Registering the same source address in both runs' memos (against
each run's own fresh clone address) preserves the simulation. -/
theorem SimSt.register {n0 d : Nat} {st1 st2 : St} (h : SimSt n0 d st1 st2)
    (a : Nat) (ha : a < n0) :
    SimSt n0 d { heap := st1.heap, next := st1.next + 1, memo := (a, st1.next) :: st1.memo }
               { heap := st2.heap, next := st2.next + 1, memo := (a, st2.next) :: st2.memo } := by
  refine ⟨?_, ?_, h.low, ?_, ?_, h.clones, h.closed⟩
  · show n0 ≤ st1.next + 1
    have := h.next_lb
    omega
  · show st2.next + 1 = st1.next + 1 + d
    have := h.next_eq
    omega
  · show (a, st2.next) :: st2.memo =
      ((a, st1.next) :: st1.memo).map (fun e => (e.1, rho n0 d e.2))
    rw [List.map_cons, ← h.memo_eq]
    simp [rho, if_neg (Nat.not_lt.mpr h.next_lb), h.next_eq]
  · intro e he
    rcases List.mem_cons.mp he with rfl | he
    · exact ha
    · exact h.memo_keys e he

/-- Bumping both runs' fresh-address counters preserves the simulation. -/
theorem SimSt.bump {n0 d : Nat} {st1 st2 : St} (h : SimSt n0 d st1 st2) :
    SimSt n0 d { heap := st1.heap, next := st1.next + 1, memo := st1.memo }
               { heap := st2.heap, next := st2.next + 1, memo := st2.memo } := by
  refine ⟨?_, ?_, h.low, h.memo_eq, h.memo_keys, h.clones, h.closed⟩
  · show n0 ≤ st1.next + 1
    have := h.next_lb
    omega
  · show st2.next + 1 = st1.next + 1 + d
    have := h.next_eq
    omega

/-- Writing a clone node at a fresh address `c ≥ n0` in the first run
and its renamed copy at the shifted address in the second run preserves
the simulation. -/
theorem SimSt.write {n0 d : Nat} {st1 st2 : St} (h : SimSt n0 d st1 st2)
    (c : Nat) (hc : n0 ≤ c) (nd : Node) :
    SimSt n0 d { heap := (c, nd) :: st1.heap, next := st1.next, memo := st1.memo }
               { heap := (c + d, renameNode (rho n0 d) nd) :: st2.heap, next := st2.next,
                 memo := st2.memo } := by
  refine ⟨h.next_lb, h.next_eq, ?_, h.memo_eq, h.memo_keys, ?_, ?_⟩
  · intro a ha
    have h1 : ¬ (a = c) := by omega
    have h2 : ¬ (a = c + d) := by omega
    show lookupNode ((c + d, renameNode (rho n0 d) nd) :: st2.heap) a =
      lookupNode ((c, nd) :: st1.heap) a
    rw [lookupNode, if_neg h2, lookupNode, if_neg h1]
    exact h.low a ha
  · intro b hb
    show lookupNode ((c + d, renameNode (rho n0 d) nd) :: st2.heap) (b + d) =
      (lookupNode ((c, nd) :: st1.heap) b).map (renameNode (rho n0 d))
    by_cases hbc : b = c
    · subst hbc
      rw [lookupNode, if_pos rfl, lookupNode, if_pos rfl]
      rfl
    · have h1 : ¬ (b + d = c + d) := by omega
      rw [lookupNode, if_neg h1, lookupNode, if_neg hbc]
      exact h.clones b hb
  · intro a nd' ha hl
    have hl' : lookupNode ((c, nd) :: st1.heap) a = some nd' := hl
    have h1 : ¬ (a = c) := by omega
    rw [lookupNode, if_neg h1] at hl'
    exact h.closed a nd' ha hl'

/-- Two runs of `cloneElems` over the same element list, from
simulation-related states, produce pointwise-renamed clones and
simulation-related final states. -/
theorem cloneElems_sim (n0 d : Nat) (dc1 dc2 : Val → St → Option (CloneResult × St))
    (hsim : ∀ v st1 st2 r1 st1', SimSt n0 d st1 st2 → valBelow n0 v = true →
      dc1 v st1 = some (r1, st1') →
      ∃ st2', dc2 v st2 = some ({ r1 with data := renameVal (rho n0 d) r1.data }, st2') ∧
        SimSt n0 d st1' st2') :
    ∀ (l : List Val) (st1 st2 : St) (l1 : List Val) (st1' : St),
      SimSt n0 d st1 st2 → l.all (valBelow n0) = true →
      cloneElems dc1 l st1 = some (l1, st1') →
      ∃ st2', cloneElems dc2 l st2 = some (l1.map (renameVal (rho n0 d)), st2') ∧
        SimSt n0 d st1' st2' := by
  intro l
  induction l with
  | nil =>
      intro st1 st2 l1 st1' hs _ hrun
      simp [cloneElems] at hrun
      obtain ⟨h1, h2⟩ := hrun
      subst h1
      subst h2
      exact ⟨st2, rfl, hs⟩
  | cons v vs ih =>
      intro st1 st2 l1 st1' hs hb hrun
      simp only [List.all_cons, Bool.and_eq_true] at hb
      rw [cloneElems] at hrun
      split at hrun
      · exact Option.noConfusion hrun
      · rename_i r st1m heq1
        split at hrun
        · exact Option.noConfusion hrun
        · rename_i rest st1b heq2
          simp only [Option.some.injEq, Prod.mk.injEq] at hrun
          obtain ⟨hl1, hst⟩ := hrun
          obtain ⟨st2m, hrun2, hs2⟩ := hsim v st1 st2 r st1m hs hb.1 heq1
          obtain ⟨st2b, hrec2, hs3⟩ := ih st1m st2m rest st1b hs2 hb.2 heq2
          refine ⟨st2b, ?_, by rw [← hst]; exact hs3⟩
          simp [cloneElems, hrun2, hrec2, ← hl1]

/-- Two runs of `clonePairs` over the same entry list, from
simulation-related states, produce pointwise-renamed key/value pairs
and simulation-related final states. -/
theorem clonePairs_sim (n0 d : Nat) (dc1 dc2 : Val → St → Option (CloneResult × St))
    (hsim : ∀ v st1 st2 r1 st1', SimSt n0 d st1 st2 → valBelow n0 v = true →
      dc1 v st1 = some (r1, st1') →
      ∃ st2', dc2 v st2 = some ({ r1 with data := renameVal (rho n0 d) r1.data }, st2') ∧
        SimSt n0 d st1' st2') :
    ∀ (l : List (Val × Val)) (st1 st2 : St) (l1 : List (Val × Val)) (st1' : St),
      SimSt n0 d st1 st2 →
      l.all (fun p => valBelow n0 p.1 && valBelow n0 p.2) = true →
      clonePairs dc1 l st1 = some (l1, st1') →
      ∃ st2', clonePairs dc2 l st2 =
          some (l1.map (fun p => (renameVal (rho n0 d) p.1, renameVal (rho n0 d) p.2)), st2') ∧
        SimSt n0 d st1' st2' := by
  intro l
  induction l with
  | nil =>
      intro st1 st2 l1 st1' hs _ hrun
      simp [clonePairs] at hrun
      obtain ⟨h1, h2⟩ := hrun
      subst h1
      subst h2
      exact ⟨st2, rfl, hs⟩
  | cons p ps ih =>
      intro st1 st2 l1 st1' hs hb hrun
      simp only [List.all_cons, Bool.and_eq_true] at hb
      rw [clonePairs] at hrun
      split at hrun
      · exact Option.noConfusion hrun
      · rename_i kr st1k heq1
        split at hrun
        · exact Option.noConfusion hrun
        · rename_i vr st1v heq2
          split at hrun
          · exact Option.noConfusion hrun
          · rename_i rest st1b heq3
            simp only [Option.some.injEq, Prod.mk.injEq] at hrun
            obtain ⟨hl1, hst⟩ := hrun
            obtain ⟨st2k, hrun2, hs2⟩ := hsim p.1 st1 st2 kr st1k hs hb.1.1 heq1
            obtain ⟨st2v, hrun3, hs3⟩ := hsim p.2 st1k st2k vr st1v hs2 hb.1.2 heq2
            obtain ⟨st2b, hrec2, hs4⟩ := ih st1v st2v rest st1b hs3 hb.2 heq3
            refine ⟨st2b, ?_, by rw [← hst]; exact hs4⟩
            simp [clonePairs, hrun2, hrun3, hrec2, ← hl1]

/-- Two runs of `cloneFields` over the same field list, from
simulation-related states, produce fields with identical keys and
pointwise-renamed values, and simulation-related final states. -/
theorem cloneFields_sim (n0 d : Nat) (dc1 dc2 : Val → St → Option (CloneResult × St))
    (hsim : ∀ v st1 st2 r1 st1', SimSt n0 d st1 st2 → valBelow n0 v = true →
      dc1 v st1 = some (r1, st1') →
      ∃ st2', dc2 v st2 = some ({ r1 with data := renameVal (rho n0 d) r1.data }, st2') ∧
        SimSt n0 d st1' st2') :
    ∀ (l : List FieldEntry) (st1 st2 : St) (l1 : List FieldEntry) (st1' : St),
      SimSt n0 d st1 st2 → l.all (fun fe => valBelow n0 fe.value) = true →
      cloneFields dc1 l st1 = some (l1, st1') →
      ∃ st2', cloneFields dc2 l st2 =
          some (l1.map (fun fe => { fe with value := renameVal (rho n0 d) fe.value }), st2') ∧
        SimSt n0 d st1' st2' := by
  intro l
  induction l with
  | nil =>
      intro st1 st2 l1 st1' hs _ hrun
      simp [cloneFields] at hrun
      obtain ⟨h1, h2⟩ := hrun
      subst h1
      subst h2
      exact ⟨st2, rfl, hs⟩
  | cons f fs ih =>
      intro st1 st2 l1 st1' hs hb hrun
      simp only [List.all_cons, Bool.and_eq_true] at hb
      rw [cloneFields] at hrun
      split at hrun
      · exact Option.noConfusion hrun
      · rename_i r st1m heq1
        split at hrun
        · exact Option.noConfusion hrun
        · rename_i rest st1b heq2
          simp only [Option.some.injEq, Prod.mk.injEq] at hrun
          obtain ⟨hl1, hst⟩ := hrun
          obtain ⟨st2m, hrun2, hs2⟩ := hsim f.value st1 st2 r st1m hs hb.1 heq1
          obtain ⟨st2b, hrec2, hs3⟩ := ih st1m st2m rest st1b hs2 hb.2 heq2
          refine ⟨st2b, ?_, by rw [← hst]; exact hs3⟩
          simp [cloneFields, hrun2, hrec2, ← hl1]

/-- Simulation: a `deepCopy` run is determined by the source part of
the heap alone.  If a run from `st1` succeeds, the run of the same value
from any simulation-related `st2` succeeds with the same fuel, returns
the same status and message and the renamed data, and leaves the final
states simulation-related — in particular every clone node of the first
run reappears, renamed, in the second run's output. -/
theorem deepCopy_sim (n0 d : Nat) :
    ∀ (fuel : Nat) (v : Val) (st1 st2 : St) (r1 : CloneResult) (st1' : St),
      SimSt n0 d st1 st2 → valBelow n0 v = true →
      deepCopy fuel v st1 = some (r1, st1') →
      ∃ st2', deepCopy fuel v st2 =
          some ({ r1 with data := renameVal (rho n0 d) r1.data }, st2') ∧
        SimSt n0 d st1' st2' := by
  intro fuel
  induction fuel with
  | zero => intro v st1 st2 r1 st1' _ _ hrun; exact Option.noConfusion hrun
  | succ fuel ih =>
      intro v st1 st2 r1 st1' hs hv hrun
      cases v with
      | prim p =>
          simp only [deepCopy, Option.some.injEq, Prod.mk.injEq] at hrun
          obtain ⟨h1, h2⟩ := hrun
          refine ⟨st2, ?_, by rw [← h2]; exact hs⟩
          rw [← h1]
          simp [deepCopy, renameVal]
      | ref a =>
          have ha : a < n0 := by simpa [valBelow] using hv
          cases hl1 : lookupNode st1.heap a with
          | none => simp [deepCopy, hl1] at hrun
          | some nd =>
              have hl2 : lookupNode st2.heap a = some nd := by rw [hs.low a ha, hl1]
              cases nd with
              | date t =>
                  simp only [deepCopy, hl1, Option.some.injEq, Prod.mk.injEq] at hrun
                  obtain ⟨h1, h2⟩ := hrun
                  refine ⟨{ heap := (st1.next + d, Node.date t) :: st2.heap,
                            next := st2.next + 1, memo := st2.memo }, ?_, ?_⟩
                  · simp only [deepCopy, hl2]
                    rw [← h1]
                    simp [renameVal, rho, if_neg (Nat.not_lt.mpr hs.next_lb), hs.next_eq]
                  · rw [← h2]
                    exact (hs.write st1.next hs.next_lb (Node.date t)).bump
              | regexp src flags li =>
                  simp only [deepCopy, hl1, Option.some.injEq, Prod.mk.injEq] at hrun
                  obtain ⟨h1, h2⟩ := hrun
                  refine ⟨{ heap := (st1.next + d, Node.regexp src flags li) :: st2.heap,
                            next := st2.next + 1, memo := st2.memo }, ?_, ?_⟩
                  · simp only [deepCopy, hl2]
                    rw [← h1]
                    simp [renameVal, rho, if_neg (Nat.not_lt.mpr hs.next_lb), hs.next_eq]
                  · rw [← h2]
                    exact (hs.write st1.next hs.next_lb (Node.regexp src flags li)).bump
              | set elems =>
                  simp only [deepCopy, hl1] at hrun
                  split at hrun
                  · exact Option.noConfusion hrun
                  · rename_i clones st1b heq
                    simp only [Option.some.injEq, Prod.mk.injEq] at hrun
                    obtain ⟨h1, h2⟩ := hrun
                    have hreg := hs.register a ha
                    have hbelow : elems.all (valBelow n0) = true := by
                      have := hs.closed a (Node.set elems) ha hl1
                      simpa [nodeBelow] using this
                    obtain ⟨st2b, heq2, hs2⟩ :=
                      cloneElems_sim n0 d _ _ ih elems _ _ clones st1b hreg hbelow heq
                    refine ⟨{ heap := (st1.next + d,
                                Node.set (clones.map (renameVal (rho n0 d)))) :: st2b.heap,
                              next := st2b.next, memo := st2b.memo }, ?_, ?_⟩
                    · simp only [deepCopy, hl2, heq2]
                      rw [← h1]
                      simp [renameVal, rho, if_neg (Nat.not_lt.mpr hs.next_lb), hs.next_eq]
                    · rw [← h2]
                      exact hs2.write st1.next hs.next_lb (Node.set clones)
              | map entries =>
                  simp only [deepCopy, hl1] at hrun
                  split at hrun
                  · exact Option.noConfusion hrun
                  · rename_i clones st1b heq
                    simp only [Option.some.injEq, Prod.mk.injEq] at hrun
                    obtain ⟨h1, h2⟩ := hrun
                    have hreg := hs.register a ha
                    have hbelow :
                        entries.all (fun p => valBelow n0 p.1 && valBelow n0 p.2) = true := by
                      have := hs.closed a (Node.map entries) ha hl1
                      simpa [nodeBelow] using this
                    obtain ⟨st2b, heq2, hs2⟩ :=
                      clonePairs_sim n0 d _ _ ih entries _ _ clones st1b hreg hbelow heq
                    refine ⟨{ heap := (st1.next + d, Node.map (clones.map
                                (fun p => (renameVal (rho n0 d) p.1,
                                  renameVal (rho n0 d) p.2)))) :: st2b.heap,
                              next := st2b.next, memo := st2b.memo }, ?_, ?_⟩
                    · simp only [deepCopy, hl2, heq2]
                      rw [← h1]
                      simp [renameVal, rho, if_neg (Nat.not_lt.mpr hs.next_lb), hs.next_eq]
                    · rw [← h2]
                      exact hs2.write st1.next hs.next_lb (Node.map clones)
              | obj isArr fields =>
                  have hm2 : memoLookup st2.memo a = (memoLookup st1.memo a).map (rho n0 d) := by
                    rw [hs.memo_eq, memoLookup_map]
                  cases hm1 : memoLookup st1.memo a with
                  | some c =>
                      simp only [deepCopy, hl1, hm1, Option.some.injEq, Prod.mk.injEq] at hrun
                      obtain ⟨h1, h2⟩ := hrun
                      refine ⟨st2, ?_, by rw [← h2]; exact hs⟩
                      simp only [deepCopy, hl2, hm2, hm1, Option.map_some']
                      rw [← h1]
                      simp [renameVal]
                  | none =>
                      simp only [deepCopy, hl1, hm1] at hrun
                      split at hrun
                      · exact Option.noConfusion hrun
                      · rename_i newFields st1b heq
                        simp only [Option.some.injEq, Prod.mk.injEq] at hrun
                        obtain ⟨h1, h2⟩ := hrun
                        have hreg := hs.register a ha
                        have hbelow : fields.all (fun fe => valBelow n0 fe.value) = true := by
                          have := hs.closed a (Node.obj isArr fields) ha hl1
                          simpa [nodeBelow] using this
                        obtain ⟨st2b, heq2, hs2⟩ :=
                          cloneFields_sim n0 d _ _ ih fields _ _ newFields st1b hreg hbelow heq
                        refine ⟨{ heap := (st1.next + d, Node.obj isArr (newFields.map
                                    (fun fe =>
                                      { fe with value := renameVal (rho n0 d) fe.value })))
                                    :: st2b.heap,
                                  next := st2b.next, memo := st2b.memo }, ?_, ?_⟩
                        · simp only [deepCopy, hl2, hm2, hm1, Option.map_none', heq2]
                          rw [← h1]
                          simp [renameVal, rho, if_neg (Nat.not_lt.mpr hs.next_lb), hs.next_eq]
                        · rw [← h2]
                          exact hs2.write st1.next hs.next_lb (Node.obj isArr newFields)

/-- Claim C6: cloning never mutates the source.  For any well-formed
source heap (closed below the fresh-address bound `n0`): a deep-copy
run leaves every pre-existing heap entry intact; a shallow-copy run
does too; and running `deepCopy` a second time on the same value
succeeds with the same status and message, again mutates nothing, and
returns a result that is structurally equal to the first: identical up
to the renaming `rho n0 d` of the first run's fresh addresses (same
data under the renaming, and every clone node reappears, renamed, at
the renamed address). -/
theorem clone_no_mutation_and_repeat_iso
    (h : List (Nat × Node)) (n0 fuel : Nat) (v : Val)
    (hheap : heapBelow n0 h = true) (hv : valBelow n0 v = true)
    (r1 : CloneResult) (st1 : St)
    (hrun : deepCopy fuel v { heap := h, next := n0, memo := [] } = some (r1, st1)) :
    (∀ a, a < n0 → lookupNode st1.heap a = lookupNode h a) ∧
    (∀ a, a < n0 →
      lookupNode ((shallowCopy v { heap := h, next := n0, memo := [] }).2).heap a =
        lookupNode h a) ∧
    (∃ st2 : St,
      deepCopy fuel v { heap := st1.heap, next := st1.next, memo := [] } =
        some ({ r1 with data := renameVal (rho n0 (st1.next - n0)) r1.data }, st2) ∧
      (∀ a, a < n0 → lookupNode st2.heap a = lookupNode h a) ∧
      (∀ a, n0 ≤ a → lookupNode st2.heap (a + (st1.next - n0)) =
        (lookupNode st1.heap a).map (renameNode (rho n0 (st1.next - n0))))) := by
  have hext := deepCopy_extends fuel v _ r1 st1 hrun
  have hframe : ∀ a, a < n0 → lookupNode st1.heap a = lookupNode h a := by
    intro a ha
    exact hext.lookup_low a ha
  have hhb : ∀ x ∈ h, x.1 < n0 ∧ nodeBelow n0 x.2 = true := by
    intro x hx
    have hx' := List.all_eq_true.mp hheap x hx
    simp only [Bool.and_eq_true, decide_eq_true_eq] at hx'
    exact hx'
  obtain ⟨hnle, ext, hheapEq, hbnd⟩ := hext
  have hn0le : n0 ≤ st1.next := hnle
  have hbound : ∀ x ∈ st1.heap, x.1 < st1.next := by
    intro x hx
    rw [hheapEq] at hx
    rcases List.mem_append.mp hx with hx1 | hx2
    · exact (hbnd x hx1).2
    · exact Nat.lt_of_lt_of_le (hhb x hx2).1 hn0le
  have hsim0 : SimSt n0 (st1.next - n0) { heap := h, next := n0, memo := [] }
      { heap := st1.heap, next := st1.next, memo := [] } := by
    refine ⟨?_, ?_, ?_, ?_, ?_, ?_, ?_⟩
    · exact Nat.le_refl n0
    · show st1.next = n0 + (st1.next - n0)
      omega
    · intro a ha
      exact hframe a ha
    · rfl
    · intro e he
      exact absurd he (List.not_mem_nil e)
    · intro a ha
      have h1 : lookupNode st1.heap (a + (st1.next - n0)) = none :=
        lookupNode_none_of_ge st1.heap st1.next _ hbound (by omega)
      have h2 : lookupNode h a = none :=
        lookupNode_none_of_ge h n0 a (fun x hx => (hhb x hx).1) ha
      rw [h1, h2]
      rfl
    · intro a nd ha hl
      exact (hhb (a, nd) (lookupNode_mem h a nd hl)).2
  obtain ⟨st2, hrun2, hsfin⟩ :=
    deepCopy_sim n0 (st1.next - n0) fuel v _ _ r1 st1 hsim0 hv hrun
  refine ⟨hframe, ?_, st2, hrun2, ?_, hsfin.clones⟩
  · intro a ha
    cases v with
    | prim p => rfl
    | ref b =>
        cases hlb : lookupNode h b with
        | none => simp [shallowCopy, hlb]
        | some nd =>
            have hne : ¬ (a = n0) := by omega
            simp [shallowCopy, hlb, lookupNode, hne]
  · intro a ha
    rw [hsfin.low a ha]
    exact hframe a ha

/-- Claim C6 witness: the one-field-less record `{}` at address 0;
both runs succeed, neither touches address 0, and the second run's
result is the first's shifted by one address. -/
theorem clone_no_mutation_and_repeat_iso_witness :
    (∀ a, a < 1 → lookupNode [(1, Node.obj false []), (0, Node.obj false [])] a =
        lookupNode [(0, Node.obj false [])] a) ∧
    (∀ a, a < 1 →
      lookupNode ((shallowCopy (Val.ref 0)
          { heap := [(0, Node.obj false [])], next := 1, memo := [] }).2).heap a =
        lookupNode [(0, Node.obj false [])] a) ∧
    (∃ st2 : St,
      deepCopy 1 (Val.ref 0)
          { heap := [(1, Node.obj false []), (0, Node.obj false [])], next := 2,
            memo := [] } =
        some ({ status := true, msg := "深拷贝成功（对象/数组）",
                data := renameVal (rho 1 1) (Val.ref 1) }, st2) ∧
      (∀ a, a < 1 → lookupNode st2.heap a = lookupNode [(0, Node.obj false [])] a) ∧
      (∀ a, 1 ≤ a → lookupNode st2.heap (a + 1) =
        (lookupNode [(1, Node.obj false []), (0, Node.obj false [])] a).map
          (renameNode (rho 1 1)))) :=
  clone_no_mutation_and_repeat_iso [(0, Node.obj false [])] 1 1 (Val.ref 0)
    (by decide) (by decide)
    { status := true, msg := "深拷贝成功（对象/数组）", data := Val.ref 1 }
    { heap := [(1, Node.obj false []), (0, Node.obj false [])], next := 2, memo := [(0, 1)] }
    (by decide)

end JsClone
